import Mathlib

/-!
Verification of the termplot terminal-plotting library.

This file gives a shallow embedding of the library's three source files
(`src/lib.rs`, `src/plot.rs`, `src/ticks.rs`) and proves theorems about the
embedded definitions.

Floating-point model: an `f64` value is modelled by `F64`, either an exact
rational finite value or one of the IEEE special values `+inf`, `-inf`, `NaN`.
The operations `F64.add`/`F64.sub`/`F64.mul`/`F64.div` compute the exact
rational result on finite values (adequate wherever every intermediate value
is representable, as in the concrete instances the claims below evaluate);
propagation of the special values follows IEEE 754, and there is no negative
zero.  Where the binary64 rounding of intermediate results is itself
observable — the accumulation `current += step_by` in
`DomainIterator::next` — the rounded counterparts `flRound`,
`F64.addR`/`F64.subR`/`F64.divR` and the rounded iterator
`Domain.iterR`/`DomainIterator.runR` model IEEE round-to-nearest-even
binary64 arithmetic exactly.

The external dot-matrix canvas (the `drawille` crate) is out of scope for the
repository; it is abstracted as a deterministic function `rowsFn` from the
configured size and the issued drawing commands to the rendered text rows, as
specified at its interface.  `usize` arithmetic is modelled on `ℕ`, with
subtraction overflow modelled as a panic (an `Option.none` result).
-/

namespace Termplot

/-- Build a string of `n` copies of one character (for Rust's width padding). -/
def repChar (c : Char) (n : ℕ) : String :=
  String.mk (List.replicate n c)

/-- A string of `n` spaces. -/
def spaces (n : ℕ) : String :=
  repChar ' ' n

/-- Rust format alignment `{: >width$}` : right-align `s` in `width` columns
by padding with spaces at the front (no truncation when `s` is wider). -/
def padFront (width : ℕ) (s : String) : String :=
  if width ≤ s.length then s else spaces (width - s.length) ++ s

/-- Rust format alignment `{:f^width$}` : center `s` in `width` columns,
filling with `fill`; an odd leftover column goes to the right side. -/
def padCenter (fill : Char) (width : ℕ) (s : String) : String :=
  if width ≤ s.length then s
  else
    let pad := width - s.length
    repChar fill (pad / 2) ++ s ++ repChar fill (pad - pad / 2)

/-- Rust `Iterator::position`: index of the first element satisfying `p`. -/
def position (p : α → Bool) : List α → Option ℕ
  | [] => none
  | a :: l => if p a then some 0 else (position p l).map (· + 1)

/-- Rust `f64::round`: round to the nearest integer, ties away from zero. -/
def rnd (q : ℚ) : ℤ :=
  if 0 ≤ q then ⌊q + 1/2⌋ else -⌊-q + 1/2⌋

/-- Round to the nearest integer, ties to even (the rounding used by Rust's
`{:.1}` float formatting). -/
def rndHalfEven (q : ℚ) : ℤ :=
  let f := ⌊q⌋
  let d := q - f
  if d < 1/2 then f
  else if 1/2 < d then f + 1
  else if f % 2 = 0 then f else f + 1

/-- Clamp an integer into `[lo, hi]` (specification-side mirror of
`f64::clamp` on integer values). -/
def clampZ (lo hi t : ℤ) : ℤ :=
  if t < lo then lo else if hi < t then hi else t

/-- Model of an `f64` value: an exact rational finite value, an infinity,
or NaN. -/
inductive F64 where
  | fin : ℚ → F64
  | pinf : F64
  | ninf : F64
  | nan : F64
deriving DecidableEq

/-- Rust `f64::is_finite`. -/
def F64.isFinite : F64 → Bool
  | .fin _ => true
  | _ => false

/-- IEEE negation. -/
def F64.neg : F64 → F64
  | .fin a => .fin (-a)
  | .pinf => .ninf
  | .ninf => .pinf
  | .nan => .nan

/-- IEEE addition (exact on finite values). -/
def F64.add : F64 → F64 → F64
  | .nan, _ => .nan
  | _, .nan => .nan
  | .pinf, .ninf => .nan
  | .ninf, .pinf => .nan
  | .pinf, _ => .pinf
  | _, .pinf => .pinf
  | .ninf, _ => .ninf
  | _, .ninf => .ninf
  | .fin a, .fin b => .fin (a + b)

/-- IEEE subtraction, as addition of the negation. -/
def F64.sub (a b : F64) : F64 :=
  a.add b.neg

/-- IEEE multiplication (exact on finite values). -/
def F64.mul : F64 → F64 → F64
  | .nan, _ => .nan
  | _, .nan => .nan
  | .pinf, .pinf => .pinf
  | .pinf, .ninf => .ninf
  | .ninf, .pinf => .ninf
  | .ninf, .ninf => .pinf
  | .pinf, .fin b => if 0 < b then .pinf else if b < 0 then .ninf else .nan
  | .fin a, .pinf => if 0 < a then .pinf else if a < 0 then .ninf else .nan
  | .ninf, .fin b => if 0 < b then .ninf else if b < 0 then .pinf else .nan
  | .fin a, .ninf => if 0 < a then .ninf else if a < 0 then .pinf else .nan
  | .fin a, .fin b => .fin (a * b)

/-- IEEE division (exact on finite values; a nonzero finite value divided by
zero gives a signed infinity, `0/0` gives NaN). -/
def F64.div : F64 → F64 → F64
  | .nan, _ => .nan
  | _, .nan => .nan
  | .pinf, .pinf => .nan
  | .pinf, .ninf => .nan
  | .ninf, .pinf => .nan
  | .ninf, .ninf => .nan
  | .pinf, .fin b => if b < 0 then .ninf else .pinf
  | .ninf, .fin b => if b < 0 then .pinf else .ninf
  | .fin _, .pinf => .fin 0
  | .fin _, .ninf => .fin 0
  | .fin a, .fin b =>
    if b = 0 then (if a = 0 then .nan else if 0 < a then .pinf else .ninf)
    else .fin (a / b)

/-- Rust `f64::abs`. -/
def F64.abs : F64 → F64
  | .fin a => .fin |a|
  | .pinf => .pinf
  | .ninf => .pinf
  | .nan => .nan

/-- IEEE `<` (false whenever either operand is NaN). -/
def F64.lt : F64 → F64 → Bool
  | .nan, _ => false
  | _, .nan => false
  | .ninf, .ninf => false
  | .ninf, _ => true
  | _, .ninf => false
  | .pinf, _ => false
  | .fin _, .pinf => true
  | .fin a, .fin b => decide (a < b)

/-- IEEE `<=` (false whenever either operand is NaN). -/
def F64.le : F64 → F64 → Bool
  | .nan, _ => false
  | _, .nan => false
  | .ninf, _ => true
  | _, .ninf => false
  | _, .pinf => true
  | .pinf, _ => false
  | .fin a, .fin b => decide (a ≤ b)

/-- Rust `f64::round`. -/
def F64.round : F64 → F64
  | .fin a => .fin (rnd a)
  | .pinf => .pinf
  | .ninf => .ninf
  | .nan => .nan

/-- Rust `f64::clamp(lo, hi)`: `lo` if below, `hi` if above, NaN propagates. -/
def F64.clamp (x lo hi : F64) : F64 :=
  if F64.lt x lo then lo else if F64.lt hi x then hi else x

/-- Rust `as u32` cast of an `f64`: truncate toward zero, saturating at the
`u32` bounds; NaN casts to `0`. -/
def F64.toU32 : F64 → ℕ
  | .nan => 0
  | .ninf => 0
  | .pinf => 4294967295
  | .fin q =>
    if q ≤ 0 then 0
    else if (4294967295 : ℚ) ≤ q then 4294967295
    else ⌊q⌋.toNat

@[simp] theorem F64.isFinite_fin (a : ℚ) : (F64.fin a).isFinite = true := rfl

@[simp] theorem F64.neg_fin (a : ℚ) : (F64.fin a).neg = .fin (-a) := rfl

@[simp] theorem F64.add_fin_fin (a b : ℚ) :
    F64.add (.fin a) (.fin b) = .fin (a + b) := rfl

@[simp] theorem F64.add_fin_pinf (a : ℚ) :
    F64.add (.fin a) .pinf = .pinf := rfl

@[simp] theorem F64.sub_fin_fin (a b : ℚ) :
    F64.sub (.fin a) (.fin b) = .fin (a - b) := by
  simp [F64.sub, sub_eq_add_neg]

@[simp] theorem F64.mul_fin_fin (a b : ℚ) :
    F64.mul (.fin a) (.fin b) = .fin (a * b) := rfl

@[simp] theorem F64.abs_fin (a : ℚ) : (F64.fin a).abs = .fin |a| := rfl

@[simp] theorem F64.lt_fin_fin (a b : ℚ) :
    F64.lt (.fin a) (.fin b) = decide (a < b) := rfl

@[simp] theorem F64.le_fin_fin (a b : ℚ) :
    F64.le (.fin a) (.fin b) = decide (a ≤ b) := rfl

@[simp] theorem F64.le_fin_pinf (a : ℚ) :
    F64.le (.fin a) .pinf = true := rfl

@[simp] theorem F64.round_fin (a : ℚ) :
    (F64.fin a).round = .fin (rnd a) := rfl

theorem F64.div_fin_fin_of_ne (a b : ℚ) (hb : b ≠ 0) :
    F64.div (.fin a) (.fin b) = .fin (a / b) := by
  simp [F64.div, hb]

theorem F64.div_fin_zero_of_pos (a : ℚ) (ha : 0 < a) :
    F64.div (.fin a) (.fin 0) = .pinf := by
  simp [F64.div, ha.ne.symm, ha]

/-- Rust `format!("{:.1}", q)` for a finite value: one digit after the
decimal point, rounding ties to even; a negative value that rounds to zero
keeps its minus sign. -/
def fmt1Q (q : ℚ) : String :=
  let n := rndHalfEven (q * 10)
  let m := n.natAbs
  (if q < 0 then "-" else "") ++ toString (m / 10) ++ "." ++ toString (m % 10)

/-- Rust `format!("{:.1}", x)` on the `F64` model. -/
def fmt1 : F64 → String
  | .fin q => fmt1Q q
  | .pinf => "inf"
  | .ninf => "-inf"
  | .nan => "NaN"

/-- `Domain(pub Range<f64>)` from `lib.rs`.  The Rust `Range` fields are
`start` and `end`; `end` is a Lean keyword, so it is named `stop` here. -/
structure Domain where
  start : F64
  stop : F64
deriving DecidableEq

/-- `Domain::default`, the range `-10.0..10.0`. -/
def Domain.default : Domain :=
  ⟨.fin (-10), .fin 10⟩

/-- `Domain::min`: the `start` field, regardless of ordering. -/
def Domain.min (d : Domain) : F64 :=
  d.start

/-- `Domain::max`: the `end` field, regardless of ordering. -/
def Domain.max (d : Domain) : F64 :=
  d.stop

/-- `Domain::range`: `(end - start).abs()`. -/
def Domain.range (d : Domain) : F64 :=
  (F64.sub d.stop d.start).abs

/-- `DomainIterator` from `lib.rs`: the running value, the iterated range
(`Domain` doubles as the model of `ops::Range<f64>`), and the increment. -/
structure DomainIterator where
  current : F64
  domain : Domain
  step_by : F64
deriving DecidableEq

/-- `DomainIterator::new`. -/
def DomainIterator.new (domain : Domain) (step_by : F64) : DomainIterator :=
  ⟨domain.start, domain, step_by⟩

/-- `Iterator::next` for `DomainIterator`: stop once `current >= domain.end`,
otherwise yield `current` and advance it by `step_by`. -/
def DomainIterator.next (it : DomainIterator) : Option (F64 × DomainIterator) :=
  if F64.le it.domain.stop it.current then none
  else some (it.current, ⟨F64.add it.current it.step_by, it.domain, it.step_by⟩)

/-- Collect up to `fuel` values from the iterator (the Rust iterator is
demand-driven; `fuel` bounds how many `next` calls are unfolded). -/
def DomainIterator.run (it : DomainIterator) : ℕ → List F64
  | 0 => []
  | fuel + 1 =>
    match it.next with
    | none => []
    | some (x, it2) => x :: it2.run fuel

/-- `Domain::iter(steps)`: a `DomainIterator` over the range with increment
`range() / steps as f64`. -/
def Domain.iter (d : Domain) (steps : ℕ) : DomainIterator :=
  DomainIterator.new d (F64.div d.range (.fin (steps : ℚ)))

/-- `Bar` from `plot.rs`. -/
structure Bar where
  x : F64
  width : F64
  height : F64
deriving DecidableEq

/-- `Bar::new(x, width, height)` (note the Rust field order `x, height,
width` in the struct literal; the fields end up as given here). -/
def Bar.new (x width height : F64) : Bar :=
  ⟨x, width, height⟩

/-- `Bars::new`: one unit-width bar per input value, at `x = index`. -/
def Bars.new (bars_height : List F64) : List Bar :=
  bars_height.enum.map fun ih => Bar.new (.fin (ih.1 : ℚ)) (.fin 1) ih.2

/-- `Range::<f64>::contains(&v)`: `start <= v && v < end` with IEEE
comparisons. -/
def rangeContains (start stop v : F64) : Bool :=
  F64.le start v && F64.lt v stop

/-- `Histogram::new`: one bar per caller-supplied bucket range, positioned at
the range start, as wide as the range, as high as the number of values the
half-open range contains. -/
def Histogram.new (values : List F64) (buckets_range : List (F64 × F64)) :
    List Bar :=
  buckets_range.map fun range =>
    { x := range.1
      width := F64.sub range.2 range.1
      height := .fin ((values.countP fun v => rangeContains range.1 range.2 v : ℕ) : ℚ) }

/-- `Size` from `lib.rs` (`usize` fields modelled on `ℕ`). -/
structure Size where
  w : ℕ
  h : ℕ
deriving DecidableEq

/-- `Size::default`, 100 × 100 pixels. -/
def Size.default : Size :=
  ⟨100, 100⟩

/-- The concrete `DrawView` implementors of `plot.rs`.  `Bars` and
`Histogram` hold the bar lists their constructors build. -/
inductive Drawable where
  | graph : (F64 → F64) → Drawable
  | bar : Bar → Drawable
  | bars : List Bar → Drawable
  | histogram : List Bar → Drawable

/-- `View` from `lib.rs`. -/
structure View where
  domain : Domain
  codomain : Domain
  size : Size
  plots : List Drawable

/-- `View::default` (derived): default domain, codomain and size, no plots. -/
def View.default : View :=
  ⟨Domain.default, Domain.default, Size.default, []⟩

/-- A drawing command forwarded to the external `drawille` canvas (pixel
coordinates are `u32`; the projection below produces in-range naturals). -/
inductive GridCmd where
  | line : ℕ × ℕ → ℕ × ℕ → GridCmd
  | point : ℕ × ℕ → GridCmd
deriving DecidableEq

/-- `ViewCanvas` from `lib.rs`: the external `drawille::Canvas` is modelled
by the list of commands issued to it, plus the borrowed view. -/
structure ViewCanvas where
  canvas : List GridCmd
  view : View

/-- `ViewCanvas::new`: a fresh canvas for the view (the external grid is
created from `view.size`; the abstraction applies the size when rendering
rows). -/
def ViewCanvas.new (view : View) : ViewCanvas :=
  ⟨[], view⟩

/-- `ViewCanvas::project_on_canvas`: linear-map `(x, y)` from the domain and
codomain (the y axis inverted) onto the pixel grid, round, clamp into
`[0, dimension-1]`, and cast to `u32`. -/
def ViewCanvas.project_on_canvas (c : ViewCanvas) (x y : F64) : ℕ × ℕ :=
  let height : F64 := .fin (c.view.size.h : ℚ)
  let y_tmp := F64.div (F64.sub y c.view.codomain.min) c.view.codomain.range
  let ypix := F64.toU32
    ((F64.sub height (F64.mul y_tmp height)).round.clamp (.fin 0)
      (F64.sub height (.fin 1)))
  let width : F64 := .fin (c.view.size.w : ℚ)
  let x_tmp := F64.div (F64.sub x c.view.domain.min) c.view.domain.range
  let xpix := F64.toU32
    ((F64.mul x_tmp width).round.clamp (.fin 0) (F64.sub width (.fin 1)))
  (xpix, ypix)

/-- `ViewCanvas::line`: project both endpoints and forward a line command. -/
def ViewCanvas.line (c : ViewCanvas) (x0 y0 x1 y1 : F64) : ViewCanvas :=
  { c with canvas := c.canvas ++
      [GridCmd.line (c.project_on_canvas x0 y0) (c.project_on_canvas x1 y1)] }

/-- `ViewCanvas::point`: project the point and forward a point command. -/
def ViewCanvas.point (c : ViewCanvas) (x y : F64) : ViewCanvas :=
  { c with canvas := c.canvas ++ [GridCmd.point (c.project_on_canvas x y)] }

/-- The retained samples of `Graph::draw`: the domain sampled at
`view.size.w` steps, each mapped through `f`, keeping only the samples whose
result is finite. -/
def Graph.points (f : F64 → F64) (v : View) (fuel : ℕ) : List (F64 × F64) :=
  ((v.domain.iter v.size.w).run fuel).filterMap fun x =>
    let y := f x
    if y.isFinite then some (x, y) else none

/-- Rust `slice::windows(2)`: the list of consecutive pairs. -/
def windows2 (l : List α) : List (α × α) :=
  l.zip l.tail

/-- The line segments emitted by `Graph::draw`: one per consecutive pair of
retained samples. -/
def Graph.segments (f : F64 → F64) (v : View) (fuel : ℕ) :
    List ((F64 × F64) × (F64 × F64)) :=
  windows2 (Graph.points f v fuel)

/-- `Graph::draw`: draw a canvas line for each emitted segment. -/
def Graph.drawOn (f : F64 → F64) (v : View) (fuel : ℕ) (canvas : ViewCanvas) :
    ViewCanvas :=
  (Graph.segments f v fuel).foldl
    (fun c s => c.line s.1.1 s.1.2 s.2.1 s.2.2) canvas

/-- `Bar::draw`: left side, right side, and the cap at `height` (no baseline
segment). -/
def Bar.drawOn (b : Bar) (canvas : ViewCanvas) : ViewCanvas :=
  let canvas := canvas.line b.x (.fin 0) b.x b.height
  let canvas := canvas.line (F64.add b.x b.width) (.fin 0)
    (F64.add b.x b.width) b.height
  canvas.line b.x b.height (F64.add b.x b.width) b.height

/-- `DrawView::draw` dispatch over the concrete implementors. -/
def Drawable.draw (fuel : ℕ) : Drawable → View → ViewCanvas → ViewCanvas
  | .graph f, v, c => Graph.drawOn f v fuel c
  | .bar b, _, c => b.drawOn c
  | .bars bs, _, c => bs.foldl (fun c b => b.drawOn c) c
  | .histogram bs, _, c => bs.foldl (fun c b => b.drawOn c) c

/-- `View::draw_axis`: the x axis across the domain at `y = 0` and the y
axis across the codomain at `x = 0`. -/
def View.draw_axis (v : View) (canvas : ViewCanvas) : ViewCanvas :=
  let canvas := canvas.line v.domain.min (.fin 0) v.domain.max (.fin 0)
  canvas.line (.fin 0) v.codomain.min (.fin 0) v.codomain.max

/-- `View::draw_plots`: draw every added plot in insertion order. -/
def View.draw_plots (v : View) (fuel : ℕ) (canvas : ViewCanvas) : ViewCanvas :=
  v.plots.foldl (fun c p => p.draw fuel v c) canvas

/-- `XTicks` from `ticks.rs`. -/
structure XTicks where
  labels : List String
  width : ℕ
deriving DecidableEq

/-- `XTicks::new`: the two domain bounds formatted to one decimal place,
minimum first. -/
def XTicks.new (domain : Domain) (width : ℕ) (_count : ℕ) : XTicks :=
  let maxLabel := fmt1 domain.max
  let minLabel := fmt1 domain.min
  ⟨[minLabel, maxLabel], width⟩

/-- The combined width of the tick labels (the fold from `XTicks::fmt`). -/
def XTicks.labelsWidth (t : XTicks) : ℕ :=
  t.labels.foldl (fun sum label => label.length + sum) 0

/-- `XTicks::fmt` (`Display`): first label flush left, one computed gap, the
other label, trailing fill.  The two `usize` subtractions are overflow
checked: a combined label width exceeding the total width is a panic,
modelled as `none`; a zero label count (division by zero) likewise. -/
def XTicks.render (t : XTicks) : Option String :=
  if t.width < t.labelsWidth then none
  else if t.labels.length - 1 = 0 then none
  else
    let total_spacing := t.width - t.labelsWidth
    let spacing := total_spacing / (t.labels.length - 1)
    let body := t.labels.enum.foldl
      (fun acc il => acc ++ (if il.1 = 0 then "" else spaces spacing) ++ il.2) ""
    if t.width < spacing * (t.labels.length - 1) + t.labelsWidth then none
    else some (body ++ spaces (t.width - spacing * (t.labels.length - 1) - t.labelsWidth))

/-- `YTicks` from `ticks.rs`. -/
structure YTicks where
  labels : List String
  row_indexes : List ℕ
deriving DecidableEq

/-- `YTicks::new`: the maximum label for row `0`, the minimum label for row
`row_count - 1`. -/
def YTicks.new (codomain : Domain) (row_count : ℕ) (_count : ℕ) : YTicks :=
  let maxLabel := fmt1 codomain.max
  let minLabel := fmt1 codomain.min
  ⟨[maxLabel, minLabel], [0, row_count - 1]⟩

/-- `Iterator::max_by_key` on label lengths: the last label of maximal
length. -/
def maxByKeyLen (labels : List String) : Option String :=
  labels.foldl
    (fun acc label =>
      match acc with
      | none => some label
      | some best => if best.length ≤ label.length then some label else some best)
    none

/-- `YTicks::display_width`: the width of the widest label, `0` when there
are none. -/
def YTicks.display_width (t : YTicks) : ℕ :=
  match maxByKeyLen t.labels with
  | some label => label.length
  | none => 0

/-- `YTicks::get`: the label whose registered row index equals `row_index`,
or the empty string. -/
def YTicks.get (t : YTicks) (row_index : ℕ) : String :=
  match position (fun index => index == row_index) t.row_indexes with
  | some index => t.labels.getD index ""
  | none => ""

/-- The abstract interface of the external `drawille` canvas: a deterministic
function from the configured size and the issued commands to the rendered
text rows. -/
def RowsFn : Type :=
  Size → List GridCmd → List String

/-- `View::drawing`: draw axis and plots on a fresh canvas, render the rows,
and (when decorating) prepend the right-aligned y-tick column to every row
and append the x-tick row.  `rows[0]` on an empty row list and a panicking
`XTicks` render are modelled as `none`. -/
def View.drawing (v : View) (rowsFn : RowsFn) (fuel : ℕ)
    (with_decoration : Bool) : Option (List String) :=
  let canvas := ViewCanvas.new v
  let canvas := v.draw_axis canvas
  let canvas := v.draw_plots fuel canvas
  let rows := rowsFn v.size canvas.canvas
  if with_decoration = false then some rows
  else
    match rows with
    | [] => none
    | r0 :: _ =>
      let width := r0.length
      let y_ticks := YTicks.new v.codomain rows.length 2
      let offset := y_ticks.display_width
      let x_ticks := XTicks.new v.domain width 2
      let out := rows.enum.map fun ir => padFront offset (y_ticks.get ir.1) ++ ir.2
      match x_ticks.render with
      | none => none
      | some xs => some (out ++ [padFront offset "" ++ xs])

/-- `Plot` from `lib.rs`. -/
structure Plot where
  title : String
  x_label : String
  y_label : String
  view : View
  with_decoration : Bool

/-- `Plot::default`: empty labels, default view, decoration on. -/
def Plot.default : Plot :=
  ⟨"", "", "", View.default, true⟩

/-- `Plot::add_plot`. -/
def Plot.add_plot (p : Plot) (plot : Drawable) : Plot :=
  { p with view := { p.view with plots := p.view.plots ++ [plot] } }

/-- `Plot::set_domain`. -/
def Plot.set_domain (p : Plot) (domain : Domain) : Plot :=
  { p with view := { p.view with domain := domain } }

/-- `Plot::set_codomain`. -/
def Plot.set_codomain (p : Plot) (codomain : Domain) : Plot :=
  { p with view := { p.view with codomain := codomain } }

/-- `Plot::set_title`. -/
def Plot.set_title (p : Plot) (title : String) : Plot :=
  { p with title := title }

/-- `Plot::set_x_label`. -/
def Plot.set_x_label (p : Plot) (label : String) : Plot :=
  { p with x_label := label }

/-- `Plot::set_y_label`. -/
def Plot.set_y_label (p : Plot) (label : String) : Plot :=
  { p with y_label := label }

/-- `Plot::set_size`. -/
def Plot.set_size (p : Plot) (size : Size) : Plot :=
  { p with view := { p.view with size := size } }

/-- The decorated branch of `Display for Plot`: border with centered title,
each row between vertical borders, closing border, two centered caption
rows. -/
def Plot.fmtDecorated (rowsFn : RowsFn) (fuel : ℕ) (p : Plot) : Option String :=
  match p.view.drawing rowsFn fuel true with
  | none => none
  | some rows =>
    match rows with
    | [] => none
    | r0 :: _ =>
      let width := r0.length
      some ("╭" ++ padCenter '─' width p.title ++ "╮\n"
        ++ String.join (rows.map fun row => "│" ++ row ++ "│\n")
        ++ "╰" ++ repChar '─' width ++ "╯\n"
        ++ " " ++ padCenter ' ' width p.x_label ++ " \n"
        ++ " " ++ padCenter ' ' width p.y_label ++ " \n")

/-- `Display for Plot` (`Plot::fmt`): render the view; without decoration the
rows joined by newlines, otherwise the framed form. -/
def Plot.fmtStr (rowsFn : RowsFn) (fuel : ℕ) (p : Plot) : Option String :=
  match p.view.drawing rowsFn fuel p.with_decoration with
  | none => none
  | some rows =>
    if p.with_decoration = false then some (String.intercalate "\n" rows)
    else
      match rows with
      | [] => none
      | r0 :: _ =>
        let width := r0.length
        some ("╭" ++ padCenter '─' width p.title ++ "╮\n"
          ++ String.join (rows.map fun row => "│" ++ row ++ "│\n")
          ++ "╰" ++ repChar '─' width ++ "╯\n"
          ++ " " ++ padCenter ' ' width p.x_label ++ " \n"
          ++ " " ++ padCenter ' ' width p.y_label ++ " \n")

/-- One call of `Plot::fmt` through a `&self` receiver: the formatted output
together with the (necessarily unchanged) receiver. -/
def Plot.fmtCall (rowsFn : RowsFn) (fuel : ℕ) (p : Plot) :
    Option String × Plot :=
  (p.fmtStr rowsFn fuel, p)

/-- One invocation of a public fluent setter of `Plot`, with its argument. -/
inductive SetterCall where
  | set_domain : Domain → SetterCall
  | set_codomain : Domain → SetterCall
  | set_title : String → SetterCall
  | set_x_label : String → SetterCall
  | set_y_label : String → SetterCall
  | set_size : Size → SetterCall
  | add_plot : Drawable → SetterCall

/-- Apply one fluent setter call to a plot. -/
def applyCall (p : Plot) : SetterCall → Plot
  | .set_domain d => p.set_domain d
  | .set_codomain d => p.set_codomain d
  | .set_title s => p.set_title s
  | .set_x_label s => p.set_x_label s
  | .set_y_label s => p.set_y_label s
  | .set_size s => p.set_size s
  | .add_plot d => p.add_plot d

/-- Specification-side projection of an x coordinate: the linear map of `x`
from `[a, b]` to `[0, w)`, rounded and clamped into `[0, w-1]`. -/
def specX (a b : ℚ) (w : ℕ) (x : ℚ) : ℕ :=
  (clampZ 0 ((w : ℤ) - 1) (rnd ((x - a) / (b - a) * w))).toNat

/-- Specification-side projection of a y coordinate: the inverted linear map
of `y` from `[c, d]` to `(0, h]`, rounded and clamped into `[0, h-1]`. -/
def specY (c d : ℚ) (h : ℕ) (y : ℚ) : ℕ :=
  (clampZ 0 ((h : ℤ) - 1) (rnd ((h : ℚ) - (y - c) / (d - c) * h))).toNat

/-! ### Binary64 rounding

The exact `F64` operations above are bit-exact wherever the values involved
are representable, but `DomainIterator::next` accumulates `current +=
step_by`, and there the binary64 rounding of every intermediate sum is
observable (it changes how many samples a domain yields).  The following
definitions give the rounding-faithful semantics of the same source
functions (`lib.rs` 411-470): `flRound` rounds an exact rational to the
nearest IEEE binary64 value, and `F64.addR`/`F64.subR`/`F64.divR` are the
IEEE operations (round the exact result), with the special-value cases
exactly as before. -/

/-- Round a rational to the nearest IEEE binary64 value, ties to even:
scale `|q|` into `[2^52, 2^53)` (clamping the scale at the subnormal
exponent `-1074`), round the scaled significand half-to-even, and scale
back; a result of magnitude `2^1024` or more overflows to an infinity. -/
def flRound (q : ℚ) : F64 :=
  if q = 0 then .fin 0
  else
    let s : ℚ := |q|
    let esub : ℤ := max (Int.log 2 s - 52) (-1074)
    let m : ℤ := rndHalfEven (s / 2 ^ esub)
    if (2 : ℚ) ^ (1024 : ℤ) ≤ (m : ℚ) * 2 ^ esub then
      (if q < 0 then .ninf else .pinf)
    else .fin (if q < 0 then -((m : ℚ) * 2 ^ esub) else (m : ℚ) * 2 ^ esub)

/-- IEEE addition with binary64 rounding of the exact sum. -/
def F64.addR (x y : F64) : F64 :=
  match x, y with
  | .fin a, .fin b => flRound (a + b)
  | _, _ => F64.add x y

/-- IEEE subtraction with binary64 rounding, as rounded addition of the
(exact) negation. -/
def F64.subR (x y : F64) : F64 :=
  F64.addR x y.neg

/-- IEEE division with binary64 rounding of the exact quotient (division by
zero gives the same special values as before). -/
def F64.divR (x y : F64) : F64 :=
  match x, y with
  | .fin a, .fin b => if b = 0 then F64.div (.fin a) (.fin b) else flRound (a / b)
  | _, _ => F64.div x y

/-- `Domain::range` under binary64 rounding (`abs` is exact in IEEE). -/
def Domain.rangeR (d : Domain) : F64 :=
  (F64.subR d.stop d.start).abs

/-- `Domain::iter(steps)` under binary64 rounding: the increment is the
rounded quotient `range() / steps as f64`. -/
def Domain.iterR (d : Domain) (steps : ℕ) : DomainIterator :=
  DomainIterator.new d (F64.divR d.rangeR (.fin (steps : ℚ)))

/-- `Iterator::next` for `DomainIterator` under binary64 rounding: the
comparison is exact, the accumulation `current += step_by` rounds. -/
def DomainIterator.nextR (it : DomainIterator) : Option (F64 × DomainIterator) :=
  if F64.le it.domain.stop it.current then none
  else some (it.current, ⟨F64.addR it.current it.step_by, it.domain, it.step_by⟩)

/-- Collect up to `fuel` values from the rounded iterator. -/
def DomainIterator.runR (it : DomainIterator) : ℕ → List F64
  | 0 => []
  | fuel + 1 =>
    match it.nextR with
    | none => []
    | some (x, it2) => x :: it2.runR fuel

/-! ### Helper lemmas about the domain iterator

The next three lemmas describe the sampler in the exact-rational
idealization of `f64` arithmetic (no accumulated rounding).  They are not
what the program computes in binary64 — the rounded iterator below is — and
no claim rests on them; they serve as the reference behavior the rounded
run deviates from. -/

/-- Closed form of the idealized (exact-arithmetic) run: starting `j` steps
into a proper domain `[a, b)` with increment `(b-a)/steps`, any sufficient
fuel yields exactly the remaining `steps - j` evenly spaced values. -/
theorem run_closed_form (a b : ℚ) (hab : a < b) (steps : ℕ) (hs : 0 < steps) :
    ∀ fuel j, j ≤ steps → steps - j ≤ fuel →
      DomainIterator.run
        ⟨.fin (a + j * ((b - a) / steps)), ⟨.fin a, .fin b⟩,
          .fin ((b - a) / steps)⟩ fuel
      = (List.range (steps - j)).map
          (fun k => F64.fin (a + ((j + k : ℕ) : ℚ) * ((b - a) / steps))) := by
  have hsQ : (0 : ℚ) < steps := by exact_mod_cast hs
  have hstep : 0 < (b - a) / steps := div_pos (by linarith) hsQ
  have hfull : (steps : ℚ) * ((b - a) / steps) = b - a := by
    field_simp
  intro fuel
  induction fuel with
  | zero =>
    intro j hj hfj
    have h0 : steps - j = 0 := Nat.le_zero.mp hfj
    simp [DomainIterator.run, h0]
  | succ n ih =>
    intro j hj hfj
    rcases eq_or_lt_of_le hj with rfl | hjlt
    · have hcur : a + (j : ℚ) * ((b - a) / j) = b := by
        rw [hfull]; ring
      have hnext : DomainIterator.next
          ⟨.fin (a + j * ((b - a) / j)), ⟨.fin a, .fin b⟩, .fin ((b - a) / j)⟩
          = none := by
        simp [DomainIterator.next, hcur]
      simp [DomainIterator.run, hnext]
    · have hjQ : (j : ℚ) < steps := by exact_mod_cast hjlt
      have hmul : (j : ℚ) * ((b - a) / steps) < (steps : ℚ) * ((b - a) / steps) :=
        mul_lt_mul_of_pos_right hjQ hstep
      have hcur_lt : a + (j : ℚ) * ((b - a) / steps) < b := by
        linarith [hmul, hfull]
      have hnotle : ¬ (b ≤ a + (j : ℚ) * ((b - a) / steps)) := not_le.mpr hcur_lt
      have hnext : DomainIterator.next
          ⟨.fin (a + j * ((b - a) / steps)), ⟨.fin a, .fin b⟩,
            .fin ((b - a) / steps)⟩
          = some (.fin (a + j * ((b - a) / steps)),
              ⟨.fin (a + ((j + 1 : ℕ) : ℚ) * ((b - a) / steps)), ⟨.fin a, .fin b⟩,
                .fin ((b - a) / steps)⟩) := by
        simp [DomainIterator.next, hnotle]
        ring
      have hrw : steps - j = (steps - (j + 1)) + 1 := by omega
      rw [hrw, List.range_succ_eq_map, List.map_cons, List.map_map]
      simp only [DomainIterator.run, hnext]
      congr 1
      rw [ih (j + 1) hjlt (by omega)]
      apply List.map_congr_left
      intro k _
      simp only [Function.comp, F64.fin.injEq]
      push_cast
      ring

/-- Normal form of `Domain::iter` on a proper finite domain with a positive
step count, in the exact-arithmetic idealization. -/
theorem iter_fin (a b : ℚ) (hab : a < b) (steps : ℕ) (hs : 0 < steps) :
    Domain.iter ⟨.fin a, .fin b⟩ steps
      = ⟨.fin a, ⟨.fin a, .fin b⟩, .fin ((b - a) / steps)⟩ := by
  have h1 : (0 : ℚ) < b - a := by linarith
  have h2 : ((steps : ℚ)) ≠ 0 := by
    exact_mod_cast hs.ne'
  simp [Domain.iter, DomainIterator.new, Domain.range, Domain.min, Domain.max,
    abs_of_pos h1, F64.div_fin_fin_of_ne _ _ h2]

/-- The run of a sufficiently fuelled idealized iterator over a proper
domain, in closed form. -/
theorem iter_run_eq_map (a b : ℚ) (steps fuel : ℕ) (hab : a < b)
    (hs : 0 < steps) (hf : steps ≤ fuel) :
    (Domain.iter ⟨.fin a, .fin b⟩ steps).run fuel
      = (List.range steps).map
          (fun k => F64.fin (a + ((k : ℕ) : ℚ) * ((b - a) / steps))) := by
  rw [iter_fin a b hab steps hs]
  have h0 := run_closed_form a b hab steps hs fuel 0 (Nat.zero_le _) (by omega)
  simpa using h0

/-! ### Helper lemmas about binary64 rounding and the rounded iterator -/

/-- Rounding half to even never exceeds its argument by more than a half. -/
theorem rndHalfEven_le (x : ℚ) : (rndHalfEven x : ℚ) ≤ x + 1/2 := by
  have hf : ((⌊x⌋ : ℤ) : ℚ) ≤ x := Int.floor_le x
  have hf2 : x - 1 < ((⌊x⌋ : ℤ) : ℚ) := by
    have := Int.lt_floor_add_one x
    linarith
  simp only [rndHalfEven]
  split_ifs with h1 h2 h3 <;> push_cast <;> linarith

/-- Uniqueness of the base-2 integer logarithm from a two-sided bound. -/
theorem log2_eq_of (q : ℚ) (E : ℤ) (hq : 0 < q)
    (h1 : (2 : ℚ) ^ E ≤ q) (h2 : q < (2 : ℚ) ^ (E + 1)) : Int.log 2 q = E := by
  have hb : (1 : ℕ) < 2 := one_lt_two
  have hcast : ((2 : ℕ) : ℚ) = (2 : ℚ) := by norm_num
  have hle : E ≤ Int.log 2 q := by
    rw [← Int.zpow_le_iff_le_log hb hq, hcast]
    exact h1
  have hlt : Int.log 2 q < E + 1 := by
    rw [← Int.lt_zpow_iff_log_lt hb hq, hcast]
    exact h2
  omega

/-- Characterization of `flRound` on a positive value: given the binade
(`2^E ≤ q < 2^(E+1)`, in the normal range), the rounded value is the
half-even rounding of the scaled significand, scaled back. -/
theorem flRound_eq_fin (q v : ℚ) (E : ℤ)
    (h1 : (2 : ℚ) ^ E ≤ q) (h2 : q < (2 : ℚ) ^ (E + 1)) (hE1 : -1022 ≤ E)
    (hof : ((rndHalfEven (q / 2 ^ (E - 52)) : ℤ) : ℚ) * 2 ^ (E - 52)
        < (2 : ℚ) ^ (1024 : ℤ))
    (hm : ((rndHalfEven (q / 2 ^ (E - 52)) : ℤ) : ℚ) * 2 ^ (E - 52) = v) :
    flRound q = .fin v := by
  have h2pos : (0 : ℚ) < (2 : ℚ) ^ E := by positivity
  have hq : 0 < q := lt_of_lt_of_le h2pos h1
  have hlog : Int.log 2 q = E := log2_eq_of q E hq h1 h2
  have hmax : max (E - 52) (-1074 : ℤ) = E - 52 := by omega
  simp only [flRound]
  rw [if_neg hq.ne', abs_of_pos hq, hlog, hmax, if_neg (not_le.mpr hof),
    if_neg (not_lt.mpr hq.le), hm]

/-- Unfolding one yielding step of the rounded iterator. -/
theorem runR_cons_of (dom : Domain) (b cur stp nxt : ℚ) (n : ℕ)
    (hstop : dom.stop = .fin b) (hlt : cur < b)
    (hadd : F64.addR (.fin cur) (.fin stp) = .fin nxt) :
    DomainIterator.runR ⟨.fin cur, dom, .fin stp⟩ (n + 1)
      = .fin cur :: DomainIterator.runR ⟨.fin nxt, dom, .fin stp⟩ n := by
  have hle : F64.le dom.stop (.fin cur) = false := by
    rw [hstop, F64.le_fin_fin]
    simp [not_le.mpr hlt]
  simp [DomainIterator.runR, DomainIterator.nextR, hle, hadd]

/-- The rounded iterator stops as soon as `current` reaches the range
end. -/
theorem runR_stop_of (dom : Domain) (b cur : ℚ) (stp : F64) (n : ℕ)
    (hstop : dom.stop = .fin b) (hge : b ≤ cur) :
    DomainIterator.runR ⟨.fin cur, dom, stp⟩ n = [] := by
  cases n with
  | zero => rfl
  | succ m =>
    have hle : F64.le dom.stop (.fin cur) = true := by
      rw [hstop, F64.le_fin_fin]
      simp [hge]
    simp [DomainIterator.runR, DomainIterator.nextR, hle]

/-- Inversion of a successful `nextR` step. -/
theorem nextR_eq_some (it : DomainIterator) (v : F64) (it2 : DomainIterator)
    (h : it.nextR = some (v, it2)) :
    v = it.current
    ∧ F64.le it.domain.stop it.current = false
    ∧ it2 = ⟨F64.addR it.current it.step_by, it.domain, it.step_by⟩ := by
  unfold DomainIterator.nextR at h
  by_cases hle : F64.le it.domain.stop it.current = true
  · rw [if_pos hle] at h
    exact absurd h (by simp)
  · rw [if_neg hle] at h
    obtain ⟨h1, h2⟩ := Prod.mk.injEq .. ▸ Option.some.inj h
    exact ⟨h1.symm, Bool.eq_false_iff.mpr hle, h2.symm⟩

/-- Every value the rounded iterator yields compares strictly below the
range end. -/
theorem runR_mem_le (fuel : ℕ) : ∀ (it : DomainIterator) (x : F64),
    x ∈ it.runR fuel → F64.le it.domain.stop x = false := by
  induction fuel with
  | zero =>
    intro it x hx
    simp [DomainIterator.runR] at hx
  | succ n ih =>
    intro it x hx
    simp only [DomainIterator.runR] at hx
    cases hnext : it.nextR with
    | none =>
      rw [hnext] at hx
      simp at hx
    | some p =>
      obtain ⟨v, it2⟩ := p
      rw [hnext] at hx
      simp at hx
      obtain ⟨hv, hle, hit2⟩ := nextR_eq_some it v it2 hnext
      rcases hx with rfl | hx
      · rw [hv]
        exact hle
      · have := ih it2 x hx
        rw [hit2] at this
        simpa using this

/-- The first value the rounded iterator yields is its current value. -/
theorem runR_get_zero (fuel : ℕ) (it : DomainIterator) (x : F64)
    (h : (it.runR fuel).get? 0 = some x) : x = it.current := by
  cases fuel with
  | zero => simp [DomainIterator.runR] at h
  | succ n =>
    simp only [DomainIterator.runR] at h
    cases hnext : it.nextR with
    | none =>
      rw [hnext] at h
      simp at h
    | some p =>
      obtain ⟨v, it2⟩ := p
      rw [hnext] at h
      simp at h
      obtain ⟨hv, -, -⟩ := nextR_eq_some it v it2 hnext
      rw [← h, hv]

/-- Each yielded value is the rounded sum of its predecessor and the
increment. -/
theorem runR_consecutive (fuel : ℕ) : ∀ (it : DomainIterator) (i : ℕ) (x y : F64),
    (it.runR fuel).get? i = some x → (it.runR fuel).get? (i + 1) = some y →
    y = F64.addR x it.step_by := by
  induction fuel with
  | zero =>
    intro it i x y hx hy
    simp [DomainIterator.runR] at hx
  | succ n ih =>
    intro it i x y hx hy
    simp only [DomainIterator.runR] at hx hy
    cases hnext : it.nextR with
    | none =>
      rw [hnext] at hx
      simp at hx
    | some p =>
      obtain ⟨v, it2⟩ := p
      rw [hnext] at hx hy
      obtain ⟨hv, -, hit2⟩ := nextR_eq_some it v it2 hnext
      cases i with
      | zero =>
        simp at hx
        have hy0 : (it2.runR n).get? 0 = some y := by simpa using hy
        have h2 := runR_get_zero n it2 y hy0
        rw [h2, hit2, ← hx, hv]
      | succ j =>
        have hx2 : (it2.runR n).get? j = some x := by simpa using hx
        have hy2 : (it2.runR n).get? (j + 1) = some y := by simpa using hy
        have := ih it2 j x y hx2 hy2
        rw [hit2] at this
        simpa using this

/-- The computed increment for `Domain(0.0..1.0).iter(10)`: the binary64
quotient `1.0 / 10.0`, which is strictly below `1/10`. -/
theorem iterR_unit_ten :
    Domain.iterR ⟨.fin 0, .fin 1⟩ 10
      = ⟨.fin 0, ⟨.fin 0, .fin 1⟩, .fin (3602879701896397 / 2 ^ 55)⟩ := by
  have h1 : flRound ((1 : ℚ)) = .fin 1 :=
    flRound_eq_fin _ _ 0 (by norm_num) (by norm_num) (by norm_num)
      (by norm_num [rndHalfEven]) (by norm_num [rndHalfEven])
  have h2 : flRound ((1 : ℚ) / 10) = .fin (3602879701896397 / 2 ^ 55) :=
    flRound_eq_fin _ _ (-4) (by norm_num) (by norm_num) (by norm_num)
      (by norm_num [rndHalfEven]) (by norm_num [rndHalfEven])
  unfold Domain.iterR DomainIterator.new Domain.rangeR F64.subR
  norm_num [F64.neg, F64.addR, h1, F64.abs, F64.divR, h2]

/-- The full binary64 run of `Domain(0.0..1.0).iter(10)`: eleven values,
ending at `0.9999999999999999` (the accumulated sum of ten rounded steps,
still strictly below `1.0`). -/
theorem iterR_unit_ten_trace :
    (Domain.iterR ⟨.fin 0, .fin 1⟩ 10).runR 12
      = [.fin (0), .fin (3602879701896397 / 2 ^ 55), .fin (3602879701896397 / 2 ^ 54),
         .fin (1351079888211149 / 2 ^ 52), .fin (3602879701896397 / 2 ^ 53),
         .fin (1 / 2 ^ 1), .fin (5404319552844595 / 2 ^ 53),
         .fin (3152519739159347 / 2 ^ 52), .fin (7205759403792793 / 2 ^ 53),
         .fin (2026619832316723 / 2 ^ 51), .fin (9007199254740991 / 2 ^ 53)] := by
  have ha1 : F64.addR (.fin (0)) (.fin (3602879701896397 / 2 ^ 55))
      = .fin (3602879701896397 / 2 ^ 55) := by
    simp only [F64.addR]
    exact flRound_eq_fin _ _ (-4) (by norm_num) (by norm_num) (by norm_num)
      (by norm_num [rndHalfEven]) (by norm_num [rndHalfEven])
  have ha2 : F64.addR (.fin (3602879701896397 / 2 ^ 55)) (.fin (3602879701896397 / 2 ^ 55))
      = .fin (3602879701896397 / 2 ^ 54) := by
    simp only [F64.addR]
    exact flRound_eq_fin _ _ (-3) (by norm_num) (by norm_num) (by norm_num)
      (by norm_num [rndHalfEven]) (by norm_num [rndHalfEven])
  have ha3 : F64.addR (.fin (3602879701896397 / 2 ^ 54)) (.fin (3602879701896397 / 2 ^ 55))
      = .fin (1351079888211149 / 2 ^ 52) := by
    simp only [F64.addR]
    exact flRound_eq_fin _ _ (-2) (by norm_num) (by norm_num) (by norm_num)
      (by norm_num [rndHalfEven]) (by norm_num [rndHalfEven])
  have ha4 : F64.addR (.fin (1351079888211149 / 2 ^ 52)) (.fin (3602879701896397 / 2 ^ 55))
      = .fin (3602879701896397 / 2 ^ 53) := by
    simp only [F64.addR]
    exact flRound_eq_fin _ _ (-2) (by norm_num) (by norm_num) (by norm_num)
      (by norm_num [rndHalfEven]) (by norm_num [rndHalfEven])
  have ha5 : F64.addR (.fin (3602879701896397 / 2 ^ 53)) (.fin (3602879701896397 / 2 ^ 55))
      = .fin (1 / 2 ^ 1) := by
    simp only [F64.addR]
    exact flRound_eq_fin _ _ (-1) (by norm_num) (by norm_num) (by norm_num)
      (by norm_num [rndHalfEven]) (by norm_num [rndHalfEven])
  have ha6 : F64.addR (.fin (1 / 2 ^ 1)) (.fin (3602879701896397 / 2 ^ 55))
      = .fin (5404319552844595 / 2 ^ 53) := by
    simp only [F64.addR]
    exact flRound_eq_fin _ _ (-1) (by norm_num) (by norm_num) (by norm_num)
      (by norm_num [rndHalfEven]) (by norm_num [rndHalfEven])
  have ha7 : F64.addR (.fin (5404319552844595 / 2 ^ 53)) (.fin (3602879701896397 / 2 ^ 55))
      = .fin (3152519739159347 / 2 ^ 52) := by
    simp only [F64.addR]
    exact flRound_eq_fin _ _ (-1) (by norm_num) (by norm_num) (by norm_num)
      (by norm_num [rndHalfEven]) (by norm_num [rndHalfEven])
  have ha8 : F64.addR (.fin (3152519739159347 / 2 ^ 52)) (.fin (3602879701896397 / 2 ^ 55))
      = .fin (7205759403792793 / 2 ^ 53) := by
    simp only [F64.addR]
    exact flRound_eq_fin _ _ (-1) (by norm_num) (by norm_num) (by norm_num)
      (by norm_num [rndHalfEven]) (by norm_num [rndHalfEven])
  have ha9 : F64.addR (.fin (7205759403792793 / 2 ^ 53)) (.fin (3602879701896397 / 2 ^ 55))
      = .fin (2026619832316723 / 2 ^ 51) := by
    simp only [F64.addR]
    exact flRound_eq_fin _ _ (-1) (by norm_num) (by norm_num) (by norm_num)
      (by norm_num [rndHalfEven]) (by norm_num [rndHalfEven])
  have ha10 : F64.addR (.fin (2026619832316723 / 2 ^ 51)) (.fin (3602879701896397 / 2 ^ 55))
      = .fin (9007199254740991 / 2 ^ 53) := by
    simp only [F64.addR]
    exact flRound_eq_fin _ _ (-1) (by norm_num) (by norm_num) (by norm_num)
      (by norm_num [rndHalfEven]) (by norm_num [rndHalfEven])
  have ha11 : F64.addR (.fin (9007199254740991 / 2 ^ 53)) (.fin (3602879701896397 / 2 ^ 55))
      = .fin (4953959590107545 / 2 ^ 52) := by
    simp only [F64.addR]
    exact flRound_eq_fin _ _ (0) (by norm_num) (by norm_num) (by norm_num)
      (by norm_num [rndHalfEven]) (by norm_num [rndHalfEven])

  have t0 : DomainIterator.runR
      ⟨.fin (4953959590107545 / 2 ^ 52), ⟨.fin 0, .fin 1⟩, .fin (3602879701896397 / 2 ^ 55)⟩ 1 = [] :=
    runR_stop_of ⟨.fin 0, .fin 1⟩ 1 (4953959590107545 / 2 ^ 52) (.fin (3602879701896397 / 2 ^ 55)) 1 rfl (by norm_num)
  have t1 : DomainIterator.runR
      ⟨.fin (9007199254740991 / 2 ^ 53), ⟨.fin 0, .fin 1⟩, .fin (3602879701896397 / 2 ^ 55)⟩ 2
      = [.fin (9007199254740991 / 2 ^ 53)] := by
    rw [show (2 : ℕ) = 1 + 1 from rfl,
      runR_cons_of ⟨.fin 0, .fin 1⟩ 1 (9007199254740991 / 2 ^ 53) (3602879701896397 / 2 ^ 55)
        (4953959590107545 / 2 ^ 52) 1 rfl (by norm_num) ha11, t0]
  have t2 : DomainIterator.runR
      ⟨.fin (2026619832316723 / 2 ^ 51), ⟨.fin 0, .fin 1⟩, .fin (3602879701896397 / 2 ^ 55)⟩ 3
      = [.fin (2026619832316723 / 2 ^ 51), .fin (9007199254740991 / 2 ^ 53)] := by
    rw [show (3 : ℕ) = 2 + 1 from rfl,
      runR_cons_of ⟨.fin 0, .fin 1⟩ 1 (2026619832316723 / 2 ^ 51) (3602879701896397 / 2 ^ 55)
        (9007199254740991 / 2 ^ 53) 2 rfl (by norm_num) ha10, t1]
  have t3 : DomainIterator.runR
      ⟨.fin (7205759403792793 / 2 ^ 53), ⟨.fin 0, .fin 1⟩, .fin (3602879701896397 / 2 ^ 55)⟩ 4
      = [.fin (7205759403792793 / 2 ^ 53), .fin (2026619832316723 / 2 ^ 51), .fin (9007199254740991 / 2 ^ 53)] := by
    rw [show (4 : ℕ) = 3 + 1 from rfl,
      runR_cons_of ⟨.fin 0, .fin 1⟩ 1 (7205759403792793 / 2 ^ 53) (3602879701896397 / 2 ^ 55)
        (2026619832316723 / 2 ^ 51) 3 rfl (by norm_num) ha9, t2]
  have t4 : DomainIterator.runR
      ⟨.fin (3152519739159347 / 2 ^ 52), ⟨.fin 0, .fin 1⟩, .fin (3602879701896397 / 2 ^ 55)⟩ 5
      = [.fin (3152519739159347 / 2 ^ 52), .fin (7205759403792793 / 2 ^ 53), .fin (2026619832316723 / 2 ^ 51), .fin (9007199254740991 / 2 ^ 53)] := by
    rw [show (5 : ℕ) = 4 + 1 from rfl,
      runR_cons_of ⟨.fin 0, .fin 1⟩ 1 (3152519739159347 / 2 ^ 52) (3602879701896397 / 2 ^ 55)
        (7205759403792793 / 2 ^ 53) 4 rfl (by norm_num) ha8, t3]
  have t5 : DomainIterator.runR
      ⟨.fin (5404319552844595 / 2 ^ 53), ⟨.fin 0, .fin 1⟩, .fin (3602879701896397 / 2 ^ 55)⟩ 6
      = [.fin (5404319552844595 / 2 ^ 53), .fin (3152519739159347 / 2 ^ 52), .fin (7205759403792793 / 2 ^ 53), .fin (2026619832316723 / 2 ^ 51), .fin (9007199254740991 / 2 ^ 53)] := by
    rw [show (6 : ℕ) = 5 + 1 from rfl,
      runR_cons_of ⟨.fin 0, .fin 1⟩ 1 (5404319552844595 / 2 ^ 53) (3602879701896397 / 2 ^ 55)
        (3152519739159347 / 2 ^ 52) 5 rfl (by norm_num) ha7, t4]
  have t6 : DomainIterator.runR
      ⟨.fin (1 / 2 ^ 1), ⟨.fin 0, .fin 1⟩, .fin (3602879701896397 / 2 ^ 55)⟩ 7
      = [.fin (1 / 2 ^ 1), .fin (5404319552844595 / 2 ^ 53), .fin (3152519739159347 / 2 ^ 52), .fin (7205759403792793 / 2 ^ 53), .fin (2026619832316723 / 2 ^ 51), .fin (9007199254740991 / 2 ^ 53)] := by
    rw [show (7 : ℕ) = 6 + 1 from rfl,
      runR_cons_of ⟨.fin 0, .fin 1⟩ 1 (1 / 2 ^ 1) (3602879701896397 / 2 ^ 55)
        (5404319552844595 / 2 ^ 53) 6 rfl (by norm_num) ha6, t5]
  have t7 : DomainIterator.runR
      ⟨.fin (3602879701896397 / 2 ^ 53), ⟨.fin 0, .fin 1⟩, .fin (3602879701896397 / 2 ^ 55)⟩ 8
      = [.fin (3602879701896397 / 2 ^ 53), .fin (1 / 2 ^ 1), .fin (5404319552844595 / 2 ^ 53), .fin (3152519739159347 / 2 ^ 52), .fin (7205759403792793 / 2 ^ 53), .fin (2026619832316723 / 2 ^ 51), .fin (9007199254740991 / 2 ^ 53)] := by
    rw [show (8 : ℕ) = 7 + 1 from rfl,
      runR_cons_of ⟨.fin 0, .fin 1⟩ 1 (3602879701896397 / 2 ^ 53) (3602879701896397 / 2 ^ 55)
        (1 / 2 ^ 1) 7 rfl (by norm_num) ha5, t6]
  have t8 : DomainIterator.runR
      ⟨.fin (1351079888211149 / 2 ^ 52), ⟨.fin 0, .fin 1⟩, .fin (3602879701896397 / 2 ^ 55)⟩ 9
      = [.fin (1351079888211149 / 2 ^ 52), .fin (3602879701896397 / 2 ^ 53), .fin (1 / 2 ^ 1), .fin (5404319552844595 / 2 ^ 53), .fin (3152519739159347 / 2 ^ 52), .fin (7205759403792793 / 2 ^ 53), .fin (2026619832316723 / 2 ^ 51), .fin (9007199254740991 / 2 ^ 53)] := by
    rw [show (9 : ℕ) = 8 + 1 from rfl,
      runR_cons_of ⟨.fin 0, .fin 1⟩ 1 (1351079888211149 / 2 ^ 52) (3602879701896397 / 2 ^ 55)
        (3602879701896397 / 2 ^ 53) 8 rfl (by norm_num) ha4, t7]
  have t9 : DomainIterator.runR
      ⟨.fin (3602879701896397 / 2 ^ 54), ⟨.fin 0, .fin 1⟩, .fin (3602879701896397 / 2 ^ 55)⟩ 10
      = [.fin (3602879701896397 / 2 ^ 54), .fin (1351079888211149 / 2 ^ 52), .fin (3602879701896397 / 2 ^ 53), .fin (1 / 2 ^ 1), .fin (5404319552844595 / 2 ^ 53), .fin (3152519739159347 / 2 ^ 52), .fin (7205759403792793 / 2 ^ 53), .fin (2026619832316723 / 2 ^ 51), .fin (9007199254740991 / 2 ^ 53)] := by
    rw [show (10 : ℕ) = 9 + 1 from rfl,
      runR_cons_of ⟨.fin 0, .fin 1⟩ 1 (3602879701896397 / 2 ^ 54) (3602879701896397 / 2 ^ 55)
        (1351079888211149 / 2 ^ 52) 9 rfl (by norm_num) ha3, t8]
  have t10 : DomainIterator.runR
      ⟨.fin (3602879701896397 / 2 ^ 55), ⟨.fin 0, .fin 1⟩, .fin (3602879701896397 / 2 ^ 55)⟩ 11
      = [.fin (3602879701896397 / 2 ^ 55), .fin (3602879701896397 / 2 ^ 54), .fin (1351079888211149 / 2 ^ 52), .fin (3602879701896397 / 2 ^ 53), .fin (1 / 2 ^ 1), .fin (5404319552844595 / 2 ^ 53), .fin (3152519739159347 / 2 ^ 52), .fin (7205759403792793 / 2 ^ 53), .fin (2026619832316723 / 2 ^ 51), .fin (9007199254740991 / 2 ^ 53)] := by
    rw [show (11 : ℕ) = 10 + 1 from rfl,
      runR_cons_of ⟨.fin 0, .fin 1⟩ 1 (3602879701896397 / 2 ^ 55) (3602879701896397 / 2 ^ 55)
        (3602879701896397 / 2 ^ 54) 10 rfl (by norm_num) ha2, t9]
  have t11 : DomainIterator.runR
      ⟨.fin (0), ⟨.fin 0, .fin 1⟩, .fin (3602879701896397 / 2 ^ 55)⟩ 12
      = [.fin (0), .fin (3602879701896397 / 2 ^ 55), .fin (3602879701896397 / 2 ^ 54), .fin (1351079888211149 / 2 ^ 52), .fin (3602879701896397 / 2 ^ 53), .fin (1 / 2 ^ 1), .fin (5404319552844595 / 2 ^ 53), .fin (3152519739159347 / 2 ^ 52), .fin (7205759403792793 / 2 ^ 53), .fin (2026619832316723 / 2 ^ 51), .fin (9007199254740991 / 2 ^ 53)] := by
    rw [show (12 : ℕ) = 11 + 1 from rfl,
      runR_cons_of ⟨.fin 0, .fin 1⟩ 1 (0) (3602879701896397 / 2 ^ 55)
        (3602879701896397 / 2 ^ 55) 11 rfl (by norm_num) ha1, t10]
  rw [iterR_unit_ten]
  exact t11

/-! ### The claims about `Domain::iter` -/

/-- C3 counterexample: under genuine binary64 arithmetic,
`Domain(0.0..1.0).iter(10)` yields `11` values, not `10` (ten accumulated
rounded increments land at `0.9999999999999999 < 1.0`, so an eleventh
`next()` succeeds), and the difference between the fourth and third values
is neither `(1-0)/10` nor the computed increment — so neither the
exactly-`steps` count nor the exact spacing of the claim holds on the
program. -/
theorem claim3_counterexample :
    ((Domain.iterR ⟨.fin 0, .fin 1⟩ 10).runR 12).length = 11
    ∧ ((Domain.iterR ⟨.fin 0, .fin 1⟩ 10).runR 12).length ≠ 10
    ∧ (Domain.iterR ⟨.fin 0, .fin 1⟩ 10).step_by
        = .fin (3602879701896397 / 2 ^ 55)
    ∧ ((Domain.iterR ⟨.fin 0, .fin 1⟩ 10).runR 12).get? 2
        = some (.fin (3602879701896397 / 2 ^ 54))
    ∧ ((Domain.iterR ⟨.fin 0, .fin 1⟩ 10).runR 12).get? 3
        = some (.fin (1351079888211149 / 2 ^ 52))
    ∧ (1351079888211149 / 2 ^ 52 - 3602879701896397 / 2 ^ 54 : ℚ)
        ≠ (1 - 0) / 10
    ∧ (1351079888211149 / 2 ^ 52 - 3602879701896397 / 2 ^ 54 : ℚ)
        ≠ 3602879701896397 / 2 ^ 55 := by
  refine ⟨?_, ?_, ?_, ?_, ?_, by norm_num, by norm_num⟩
  · rw [iterR_unit_ten_trace]
    rfl
  · rw [iterR_unit_ten_trace]
    simp
  · rw [iterR_unit_ten]
  · rw [iterR_unit_ten_trace]
    rfl
  · rw [iterR_unit_ten_trace]
    rfl

/-- C3 (amended): for every domain `[a, b)` with `a < b`, the first yielded
value is `a`, every yielded value is strictly less than `b`, and each
subsequent value is the binary64-rounded sum of its predecessor and the
computed increment; the accumulated rounding can change the count, and
`Domain(0.0..1.0).iter(10)` yields `11` values rather than `10`. -/
theorem claim3_rounded_samples (a b : ℚ) (steps fuel : ℕ)
    (hab : a < b) (hf : 1 ≤ fuel) :
    ((Domain.iterR ⟨.fin a, .fin b⟩ steps).runR fuel).head? = some (.fin a)
    ∧ (∀ u : ℚ,
        .fin u ∈ (Domain.iterR ⟨.fin a, .fin b⟩ steps).runR fuel → u < b)
    ∧ (∀ (i : ℕ) (x y : F64),
        ((Domain.iterR ⟨.fin a, .fin b⟩ steps).runR fuel).get? i = some x →
        ((Domain.iterR ⟨.fin a, .fin b⟩ steps).runR fuel).get? (i + 1) = some y →
        y = F64.addR x (Domain.iterR ⟨.fin a, .fin b⟩ steps).step_by)
    ∧ ((Domain.iterR ⟨.fin 0, .fin 1⟩ 10).runR 12).length = 11 := by
  have hstopF : (Domain.iterR ⟨.fin a, .fin b⟩ steps).domain.stop = .fin b := rfl
  have hcur : (Domain.iterR ⟨.fin a, .fin b⟩ steps).current = .fin a := rfl
  refine ⟨?_, ?_, ?_, ?_⟩
  · obtain ⟨n, rfl⟩ : ∃ n, fuel = n + 1 := ⟨fuel - 1, by omega⟩
    have hle : F64.le (Domain.iterR ⟨.fin a, .fin b⟩ steps).domain.stop
        (.fin a) = false := by
      rw [hstopF, F64.le_fin_fin]
      simp [not_le.mpr hab]
    simp [DomainIterator.runR, DomainIterator.nextR, hle, hcur]
  · intro u hu
    have h := runR_mem_le fuel _ _ hu
    rw [hstopF, F64.le_fin_fin] at h
    simpa using h
  · exact fun i x y hx hy => runR_consecutive fuel _ i x y hx hy
  · rw [iterR_unit_ten_trace]
    rfl

/-- C3 witness: the amended behavior at the concrete domain `0.0..1.0`
with ten steps. -/
theorem claim3_rounded_witness :
    ((Domain.iterR ⟨.fin 0, .fin 1⟩ 10).runR 12).head? = some (.fin 0)
    ∧ ((Domain.iterR ⟨.fin 0, .fin 1⟩ 10).runR 12).length = 11 :=
  ⟨(claim3_rounded_samples 0 1 10 12 (by norm_num) (by norm_num)).1,
    (claim3_rounded_samples 0 1 10 12 (by norm_num) (by norm_num)).2.2.2⟩

/-- C4: for every reversed domain (`start > end`) and every positive step
count, `Domain::iter(steps)` yields the empty sequence, whatever the fuel. -/
theorem claim4_reversed_domain_empty (a b : ℚ) (steps fuel : ℕ)
    (hba : b < a) (_hs : 0 < steps) :
    (Domain.iter ⟨.fin a, .fin b⟩ steps).run fuel = [] := by
  cases fuel with
  | zero => rfl
  | succ n =>
    have hle : b ≤ a := hba.le
    simp [Domain.iter, DomainIterator.new, DomainIterator.run,
      DomainIterator.next, hle]

/-- C4 witness: the reversed domain `8.0..-8.0` of the crate's doc example
yields no samples. -/
theorem claim4_witness :
    (Domain.iter ⟨.fin 8, .fin (-8)⟩ 3).run 5 = [] :=
  claim4_reversed_domain_empty 8 (-8) 3 5 (by norm_num) (by norm_num)

/-- C1 counterexample: `Domain::iter(0)` on the domain `0.0..10.0` does not
fail with any error; it returns an iterator whose increment is `+Infinity`
(the `f64` division `range() / 0.0`), and running that iterator yields the
start value. -/
theorem claim1_counterexample :
    (Domain.iter ⟨.fin 0, .fin 10⟩ 0).step_by = F64.pinf
    ∧ (Domain.iter ⟨.fin 0, .fin 10⟩ 0).run 5 = [.fin 0] := by
  constructor
  · norm_num [Domain.iter, DomainIterator.new, Domain.range, Domain.min,
      Domain.max, F64.abs, F64.div]
  · norm_num [Domain.iter, DomainIterator.new, Domain.range, Domain.min,
      Domain.max, F64.abs, F64.div, DomainIterator.run, DomainIterator.next,
      F64.le, F64.add]

/-- C1 (amended): sampling with `steps == 0` raises no error: for a proper
domain `[a, b)` with `a < b`, `Domain::iter(0)` is an iterator whose
increment is `+Infinity`, and it yields exactly the single value `a` (the
second `next` call pushes `current` to `+Infinity`, which stops it). -/
theorem claim1_iter_zero_steps (a b : ℚ) (fuel : ℕ) (hab : a < b)
    (hf : 1 ≤ fuel) :
    (Domain.iter ⟨.fin a, .fin b⟩ 0).step_by = F64.pinf
    ∧ (Domain.iter ⟨.fin a, .fin b⟩ 0).run fuel = [.fin a] := by
  have hba : (0 : ℚ) < b - a := by linarith
  have hiter : Domain.iter ⟨.fin a, .fin b⟩ 0
      = ⟨.fin a, ⟨.fin a, .fin b⟩, F64.pinf⟩ := by
    simp [Domain.iter, DomainIterator.new, Domain.range, abs_of_pos hba,
      F64.div, hba.ne.symm, hba]
  refine ⟨by rw [hiter], ?_⟩
  obtain ⟨n, rfl⟩ : ∃ n, fuel = n + 1 := ⟨fuel - 1, by omega⟩
  have htail : ∀ m st,
      DomainIterator.run ⟨F64.pinf, ⟨.fin a, .fin b⟩, st⟩ m = [] := by
    intro m st
    cases m with
    | zero => rfl
    | succ k => simp [DomainIterator.run, DomainIterator.next, F64.le]
  rw [hiter]
  have hnotle : ¬ (b ≤ a) := not_le.mpr hab
  simp [DomainIterator.run, DomainIterator.next, hnotle, F64.add, htail]

/-- C1 witness: the amended behavior at the concrete domain `0.0..10.0`. -/
theorem claim1_witness :
    (Domain.iter ⟨.fin 0, .fin 10⟩ 0).step_by = F64.pinf
    ∧ (Domain.iter ⟨.fin 0, .fin 10⟩ 0).run 3 = [.fin 0] :=
  claim1_iter_zero_steps 0 10 3 (by norm_num) (by norm_num)

/-! ### Helper lemmas about projection -/

/-- Rounding is the identity on integers. -/
theorem rnd_intCast (k : ℤ) : rnd (k : ℚ) = k := by
  unfold rnd
  split_ifs with h
  · rw [add_comm, Int.floor_add_int]
    norm_num
  · rw [show -(k : ℚ) + 1/2 = 1/2 + ((-k : ℤ) : ℚ) from by push_cast; ring,
      Int.floor_add_int]
    norm_num

/-- The `u32` cast is exact on integer values inside the `u32` range. -/
theorem toU32_intCast (k : ℤ) (h0 : 0 ≤ k) (h1 : k ≤ 4294967294) :
    F64.toU32 (.fin (k : ℚ)) = k.toNat := by
  simp only [F64.toU32]
  split_ifs with ha hb
  · have hz : k = 0 := le_antisymm (by exact_mod_cast ha) h0
    omega
  · have : (4294967295 : ℤ) ≤ k := by exact_mod_cast hb
    omega
  · rw [Int.floor_intCast]

/-- `f64::clamp` on finite values is the rational clamp. -/
theorem clamp_fin (t lo hi : ℚ) :
    F64.clamp (.fin t) (.fin lo) (.fin hi)
      = .fin (if t < lo then lo else if hi < t then hi else t) := by
  unfold F64.clamp
  simp only [F64.lt_fin_fin, decide_eq_true_eq]
  split_ifs <;> rfl

/-- Clamping a rounded integer into `[0, m-1]` and casting to `u32` agrees
with the integer-level clamp, for a positive in-range dimension `m`. -/
theorem toU32_clamped (k : ℤ) (m : ℕ) (hm : 0 < m) (hmu : m ≤ 4294967295) :
    F64.toU32 (.fin (if (k : ℚ) < 0 then (0 : ℚ)
        else if ((m : ℚ) - 1) < (k : ℚ) then (m : ℚ) - 1 else (k : ℚ)))
      = (clampZ 0 ((m : ℤ) - 1) k).toNat := by
  by_cases hk : k < 0
  · rw [if_pos (by exact_mod_cast hk)]
    unfold clampZ
    rw [if_pos hk]
    norm_num [F64.toU32]
  · by_cases hk2 : (m : ℤ) - 1 < k
    · rw [if_neg (by exact_mod_cast hk), if_pos (by exact_mod_cast hk2)]
      rw [show (m : ℚ) - 1 = (((m : ℤ) - 1 : ℤ) : ℚ) from by push_cast; ring]
      rw [toU32_intCast _ (by omega) (by omega)]
      unfold clampZ
      rw [if_neg (by omega), if_pos hk2]
    · rw [if_neg (by exact_mod_cast hk), if_neg (by exact_mod_cast hk2)]
      rw [toU32_intCast _ (by omega) (by omega)]
      unfold clampZ
      rw [if_neg (by omega), if_neg hk2]

/-- C5: `project_on_canvas` linearly maps `x` from `[domain.min, domain.max]`
and `y` (inverted) from `[codomain.min, codomain.max]` onto the grid, rounds
to the nearest integer pixel and clamps each coordinate into
`[0, dimension-1]` (the rational reference functions `specX`/`specY` state
exactly this round-then-clamp linear map); in particular
`(domain.min, codomain.min)` projects to `(0, height-1)` and
`(domain.max, codomain.max)` to `(width-1, 0)`, for every view with positive
in-`u32`-range width and height and proper domains. -/
theorem claim5_projection (cmds : List GridCmd) (plots : List Drawable)
    (a b cLo d : ℚ) (w h : ℕ)
    (hab : a < b) (hcd : cLo < d)
    (hw : 0 < w) (hwu : w ≤ 4294967295) (hh : 0 < h) (hhu : h ≤ 4294967295) :
    (∀ x y : ℚ,
      ViewCanvas.project_on_canvas
        ⟨cmds, ⟨⟨.fin a, .fin b⟩, ⟨.fin cLo, .fin d⟩, ⟨w, h⟩, plots⟩⟩
        (.fin x) (.fin y)
      = (specX a b w x, specY cLo d h y))
    ∧ ViewCanvas.project_on_canvas
        ⟨cmds, ⟨⟨.fin a, .fin b⟩, ⟨.fin cLo, .fin d⟩, ⟨w, h⟩, plots⟩⟩
        (.fin a) (.fin cLo) = (0, h - 1)
    ∧ ViewCanvas.project_on_canvas
        ⟨cmds, ⟨⟨.fin a, .fin b⟩, ⟨.fin cLo, .fin d⟩, ⟨w, h⟩, plots⟩⟩
        (.fin b) (.fin d) = (w - 1, 0) := by
  have hba : (0 : ℚ) < b - a := by linarith
  have hdc : (0 : ℚ) < d - cLo := by linarith
  have hgen : ∀ x y : ℚ,
      ViewCanvas.project_on_canvas
        ⟨cmds, ⟨⟨.fin a, .fin b⟩, ⟨.fin cLo, .fin d⟩, ⟨w, h⟩, plots⟩⟩
        (.fin x) (.fin y)
      = (specX a b w x, specY cLo d h y) := by
    intro x y
    unfold ViewCanvas.project_on_canvas
    simp only [Domain.min, Domain.range, F64.sub_fin_fin, F64.abs_fin,
      abs_of_pos hba, abs_of_pos hdc]
    rw [F64.div_fin_fin_of_ne _ _ hdc.ne', F64.div_fin_fin_of_ne _ _ hba.ne']
    simp only [F64.mul_fin_fin, F64.sub_fin_fin, F64.round_fin]
    rw [clamp_fin, clamp_fin]
    rw [toU32_clamped _ _ hw hwu, toU32_clamped _ _ hh hhu]
    rfl
  refine ⟨hgen, ?_, ?_⟩
  · rw [hgen a cLo]
    have hx : specX a b w a = 0 := by
      unfold specX
      have h0 : (a - a) / (b - a) * w = 0 := by simp
      rw [h0, show rnd 0 = 0 from by norm_num [rnd]]
      unfold clampZ
      split_ifs <;> omega
    have hy : specY cLo d h cLo = h - 1 := by
      unfold specY
      have h0 : (cLo - cLo) / (d - cLo) * h = 0 := by simp
      rw [h0, sub_zero]
      rw [show ((h : ℕ) : ℚ) = (((h : ℕ) : ℤ) : ℚ) from by push_cast; rfl,
        rnd_intCast]
      unfold clampZ
      split_ifs <;> omega
    rw [hx, hy]
  · rw [hgen b d]
    have hx : specX a b w b = w - 1 := by
      unfold specX
      rw [div_self hba.ne', one_mul]
      rw [show ((w : ℕ) : ℚ) = (((w : ℕ) : ℤ) : ℚ) from by push_cast; rfl,
        rnd_intCast]
      unfold clampZ
      split_ifs <;> omega
    have hy : specY cLo d h d = 0 := by
      unfold specY
      rw [div_self hdc.ne', one_mul, sub_self]
      rw [show rnd 0 = 0 from by norm_num [rnd]]
      unfold clampZ
      split_ifs <;> omega
    rw [hx, hy]

/-- C5 witness: on a 4 × 4 view over domain and codomain `[0, 2]`, the
corner `(0, 0)` projects to pixel `(0, 3)` and the corner `(2, 2)` to
`(3, 0)`. -/
theorem claim5_witness :
    ViewCanvas.project_on_canvas
      ⟨[], ⟨⟨.fin 0, .fin 2⟩, ⟨.fin 0, .fin 2⟩, ⟨4, 4⟩, []⟩⟩
      (.fin 0) (.fin 0) = (0, 3)
    ∧ ViewCanvas.project_on_canvas
      ⟨[], ⟨⟨.fin 0, .fin 2⟩, ⟨.fin 0, .fin 2⟩, ⟨4, 4⟩, []⟩⟩
      (.fin 2) (.fin 2) = (3, 0) :=
  ⟨(claim5_projection [] [] 0 2 0 2 4 4 (by norm_num) (by norm_num)
      (by norm_num) (by norm_num) (by norm_num) (by norm_num)).2.1,
    (claim5_projection [] [] 0 2 0 2 4 4 (by norm_num) (by norm_num)
      (by norm_num) (by norm_num) (by norm_num) (by norm_num)).2.2⟩

/-! ### Helper lemmas about lists of consecutive pairs and canvas folds -/

/-- An element of `l.zip l.tail` is the pair of elements at positions `i`
and `i + 1` of `l`. -/
theorem zip_tail_get {α : Type _} : ∀ (l : List α) (i : ℕ) (p q : α),
    (l.zip l.tail).get? i = some (p, q) →
      l.get? i = some p ∧ l.get? (i + 1) = some q := by
  intro l
  induction l with
  | nil =>
    intro i p q h
    simp at h
  | cons x xs ih =>
    intro i p q h
    cases xs with
    | nil => simp at h
    | cons y ys =>
      cases i with
      | zero =>
        simp at h
        simp [h]
      | succ n =>
        simp only [List.tail_cons, List.zip_cons_cons, List.get?] at h ⊢
        exact ih n p q h

/-- The view (and hence the projection) of a canvas is unchanged by `line`. -/
@[simp] theorem ViewCanvas.project_line (c : ViewCanvas)
    (x0 y0 x1 y1 x y : F64) :
    (c.line x0 y0 x1 y1).project_on_canvas x y = c.project_on_canvas x y := rfl

/-- Folding `line` calls over a list of segments appends exactly one
projected line command per segment. -/
theorem foldl_line_canvas (segs : List ((F64 × F64) × (F64 × F64))) :
    ∀ c : ViewCanvas,
      (segs.foldl (fun c s => c.line s.1.1 s.1.2 s.2.1 s.2.2) c).canvas
        = c.canvas ++ segs.map
            (fun s => GridCmd.line (c.project_on_canvas s.1.1 s.1.2)
              (c.project_on_canvas s.2.1 s.2.2)) := by
  induction segs with
  | nil =>
    intro c
    simp
  | cons s rest ih =>
    intro c
    simp only [List.foldl_cons, List.map_cons]
    rw [ih]
    simp only [ViewCanvas.project_line]
    simp [ViewCanvas.line]

/-- C6 counterexample: on the domain `0.0..3.0` sampled at width `3`, the
function that is the identity except that it returns NaN at `x = 1` has its
middle sample dropped, yet `Graph::draw` emits the segment joining the
retained neighbours `(0, 0)` and `(2, 2)` — the segment spanning the dropped
sample is drawn (bridging the gap), not omitted. -/
theorem claim6_counterexample :
    (Domain.iter (⟨⟨.fin 0, .fin 3⟩, Domain.default, ⟨3, 4⟩, []⟩ : View).domain
        3).run 3 = [.fin 0, .fin 1, .fin 2]
    ∧ F64.isFinite ((fun v => if v = F64.fin 1 then F64.nan else v)
        (F64.fin 1)) = false
    ∧ Graph.segments (fun v => if v = F64.fin 1 then F64.nan else v)
        ⟨⟨.fin 0, .fin 3⟩, Domain.default, ⟨3, 4⟩, []⟩ 3
      = [((.fin 0, .fin 0), (.fin 2, .fin 2))] := by
  refine ⟨?_, rfl, ?_⟩
  · norm_num [Domain.iter, DomainIterator.new, Domain.range, Domain.min,
      Domain.max, F64.abs, F64.div, DomainIterator.run, DomainIterator.next,
      F64.le, F64.add]
  · norm_num [Graph.segments, Graph.points, windows2, Domain.iter,
      DomainIterator.new, Domain.range, Domain.min, Domain.max, F64.abs,
      F64.div, DomainIterator.run, DomainIterator.next, F64.le, F64.add,
      F64.isFinite, List.filterMap]

/-- C6 (amended): `Graph::draw` samples the domain at `view.size.w` steps,
keeps exactly the samples with finite `f` value, and draws one line segment
per consecutive pair of *retained* samples; hence when a sample is dropped
its retained neighbours become consecutive and a single segment is drawn
directly between them (the gap is bridged, not left as a break). -/
theorem claim6_graph_segments (f : F64 → F64) (v : View) (fuel : ℕ)
    (c : ViewCanvas) :
    (∀ p ∈ Graph.points f v fuel, p.2 = f p.1 ∧ (f p.1).isFinite = true)
    ∧ (Graph.segments f v fuel).length = (Graph.points f v fuel).length - 1
    ∧ (∀ i p q, (Graph.segments f v fuel).get? i = some (p, q) →
        (Graph.points f v fuel).get? i = some p
        ∧ (Graph.points f v fuel).get? (i + 1) = some q)
    ∧ (Graph.drawOn f v fuel c).canvas
      = c.canvas ++ (Graph.segments f v fuel).map
          (fun s => GridCmd.line (c.project_on_canvas s.1.1 s.1.2)
            (c.project_on_canvas s.2.1 s.2.2)) := by
  refine ⟨?_, ?_, ?_, ?_⟩
  · intro p hp
    unfold Graph.points at hp
    obtain ⟨x, _, hfx⟩ := List.mem_filterMap.mp hp
    by_cases hfin : (f x).isFinite
    · simp only [hfin, if_pos] at hfx
      have hpx := Option.some.inj hfx
      subst hpx
      exact ⟨rfl, hfin⟩
    · simp [hfin] at hfx
  · unfold Graph.segments windows2
    simp [List.length_zip]
  · intro i p q h
    exact zip_tail_get (Graph.points f v fuel) i p q h
  · unfold Graph.drawOn
    exact foldl_line_canvas (Graph.segments f v fuel) c

/-- C7: for every histogram built from values and caller-supplied bucket
ranges, the height of each bar is the number of values in the bucket's
half-open range, computed independently per bucket (a value may count in
zero, one, or many buckets); the spec's concrete example gives heights
`2, 2, 1`, and a value inside two overlapping buckets counts in both. -/
theorem claim7_histogram_heights :
    (∀ (values : List F64) (buckets_range : List (F64 × F64)),
      (Histogram.new values buckets_range).map Bar.height
        = buckets_range.map (fun range =>
            F64.fin ((values.countP
              (fun v => rangeContains range.1 range.2 v) : ℕ) : ℚ)))
    ∧ (Histogram.new [.fin 1, .fin 1, .fin 3, .fin 3, .fin 5]
        [(.fin 0, .fin 2), (.fin 2, .fin 4), (.fin 4, .fin 6)]).map Bar.height
      = [.fin 2, .fin 2, .fin 1]
    ∧ (Histogram.new [.fin 1]
        [(.fin 0, .fin 2), (.fin 0, .fin 2), (.fin 3, .fin 4)]).map Bar.height
      = [.fin 1, .fin 1, .fin 0] := by
  refine ⟨?_, ?_, ?_⟩
  · intro values buckets_range
    simp [Histogram.new, Function.comp]
  · norm_num [Histogram.new, rangeContains, List.countP, List.countP.go,
      F64.le, F64.lt, F64.sub, F64.neg, F64.add]
  · norm_num [Histogram.new, rangeContains, List.countP, List.countP.go,
      F64.le, F64.lt, F64.sub, F64.neg, F64.add]

/-- C2: when the combined width of the two x-axis tick labels exceeds the
total available width, the checked `usize` subtraction in `XTicks::fmt`
fails (a panic, modelled as `none`): rendering fails with an error rather
than producing an underflowed spacing width. -/
theorem claim2_xticks_overflow (domain : Domain) (width count : ℕ)
    (hover : width < (XTicks.new domain width count).labelsWidth) :
    (XTicks.new domain width count).render = none := by
  have h : (XTicks.new domain width count).width
      < (XTicks.new domain width count).labelsWidth := hover
  unfold XTicks.render
  rw [if_pos h]

/-- C2 witness: with domain `0.0..1.0` the labels `"0.0"` and `"1.0"` have
combined width `6`, which exceeds a total width of `5`, so rendering
fails. -/
theorem claim2_witness :
    (XTicks.new ⟨.fin 0, .fin 1⟩ 5 2).render = none :=
  claim2_xticks_overflow ⟨.fin 0, .fin 1⟩ 5 2 (by
    norm_num [XTicks.new, XTicks.labelsWidth, Domain.min, Domain.max,
      fmt1, fmt1Q, rndHalfEven]
    decide)

/-- C8 counterexample: with codomain `0.0..1.0` and `row_count = 1`, row
`row_count - 1 = 0` receives the max-value label `"1.0"`, not the min-value
label `"0.0"`: the claimed association of the min label with row
`row_count - 1` fails at `row_count = 1`. -/
theorem claim8_counterexample :
    (YTicks.new ⟨.fin 0, .fin 1⟩ 1 2).get 0 = "1.0"
    ∧ fmt1 (Domain.min ⟨.fin 0, .fin 1⟩) = "0.0"
    ∧ ("1.0" : String) ≠ "0.0" := by
  refine ⟨?_, ?_, by decide⟩
  · norm_num [YTicks.new, YTicks.get, position, Domain.min, Domain.max,
      fmt1, fmt1Q, rndHalfEven]
    rfl
  · norm_num [Domain.min, fmt1, fmt1Q, rndHalfEven]
    rfl

/-- C8 (amended): for every codomain and every `row_count ≥ 2`, `YTicks`
associates the max-value label with row `0` and the min-value label with row
`row_count - 1`; `display_width()` is the length of the longer of the two
labels; and `get(i)` is the empty string for every other row index.  (At
`row_count = 1` the two indices coincide and row `0` receives the max-value
label.) -/
theorem claim8_yticks (codomain : Domain) (row_count cnt : ℕ)
    (h2 : 2 ≤ row_count) :
    (YTicks.new codomain row_count cnt).get 0 = fmt1 codomain.max
    ∧ (YTicks.new codomain row_count cnt).get (row_count - 1)
        = fmt1 codomain.min
    ∧ (YTicks.new codomain row_count cnt).display_width
        = Nat.max (fmt1 codomain.max).length (fmt1 codomain.min).length
    ∧ (∀ i : ℕ, i ≠ 0 → i ≠ row_count - 1 →
        (YTicks.new codomain row_count cnt).get i = "") := by
  refine ⟨?_, ?_, ?_, ?_⟩
  · simp [YTicks.new, YTicks.get, position]
  · have hne : ¬ ((0 : ℕ) == row_count - 1) = true := by
      simp only [beq_iff_eq]
      omega
    simp only [YTicks.new, YTicks.get, position, hne, if_neg, if_false,
      beq_self_eq_true, if_true, Option.map_some]
    simp
  · simp only [YTicks.new, YTicks.display_width, maxByKeyLen, List.foldl]
    split_ifs with hle
    · show (fmt1 codomain.min).length
        = (fmt1 codomain.max).length.max (fmt1 codomain.min).length
      exact (Nat.max_eq_right hle).symm
    · show (fmt1 codomain.max).length
        = (fmt1 codomain.max).length.max (fmt1 codomain.min).length
      exact (Nat.max_eq_left (Nat.le_of_not_le hle)).symm
  · intro i hi0 hi1
    have hne0 : ¬ ((0 : ℕ) == i) = true := by
      simp only [beq_iff_eq]
      omega
    have hne1 : ¬ ((row_count - 1 : ℕ) == i) = true := by
      simp only [beq_iff_eq]
      omega
    simp [YTicks.new, YTicks.get, position, hne0, hne1]

/-- C8 witness: the amended behavior on codomain `0.0..1.0` with three
rows. -/
theorem claim8_witness :
    (YTicks.new ⟨.fin 0, .fin 1⟩ 3 2).get 0 = fmt1 (Domain.max ⟨.fin 0, .fin 1⟩)
    ∧ (YTicks.new ⟨.fin 0, .fin 1⟩ 3 2).get 2 = fmt1 (Domain.min ⟨.fin 0, .fin 1⟩) :=
  ⟨(claim8_yticks ⟨.fin 0, .fin 1⟩ 3 2 (by norm_num)).1,
    (claim8_yticks ⟨.fin 0, .fin 1⟩ 3 2 (by norm_num)).2.1⟩

/-! ### The claims about the rendering pipeline -/

/-- C9: rendering a `Plot` is deterministic and read-only over its
configuration.  `Plot::fmt` takes `&self`, modelled by `fmtCall` returning
the receiver alongside the output; formatting twice in sequence leaves the
plot unchanged and yields byte-identical output, for every abstract canvas
rendering function. -/
theorem claim9_render_deterministic (rowsFn : RowsFn) (fuel : ℕ) (p : Plot) :
    (Plot.fmtCall rowsFn fuel p).2 = p
    ∧ (Plot.fmtCall rowsFn fuel ((Plot.fmtCall rowsFn fuel p).2)).1
      = (Plot.fmtCall rowsFn fuel p).1 :=
  ⟨rfl, rfl⟩

/-- No public fluent setter touches the `with_decoration` field. -/
theorem applyCall_with_decoration (p : Plot) (c : SetterCall) :
    (applyCall p c).with_decoration = p.with_decoration := by
  cases c <;> rfl

/-- A fold of fluent setter calls preserves the `with_decoration` field. -/
theorem foldl_with_decoration (calls : List SetterCall) :
    ∀ p : Plot,
      (calls.foldl applyCall p).with_decoration = p.with_decoration := by
  induction calls with
  | nil =>
    intro p
    rfl
  | cons c rest ih =>
    intro p
    rw [List.foldl_cons, ih, applyCall_with_decoration]

/-- A plot whose decoration flag is set always formats through the framed
branch of `Display`. -/
theorem fmtStr_eq_decorated (rowsFn : RowsFn) (fuel : ℕ) (p : Plot)
    (hdec : p.with_decoration = true) :
    Plot.fmtStr rowsFn fuel p = Plot.fmtDecorated rowsFn fuel p := by
  unfold Plot.fmtStr Plot.fmtDecorated
  rw [hdec]
  cases hrows : p.view.drawing rowsFn fuel true with
  | none => rfl
  | some rows =>
    cases rows with
    | nil => rfl
    | cons r rest => rfl

/-- C10: starting from `Plot::default`, no sequence of the public fluent
setters (`set_domain`, `set_codomain`, `set_title`, `set_x_label`,
`set_y_label`, `set_size`, `add_plot`) can change `with_decoration` from
`true`, so `Display` always takes the framed (decorated) branch. -/
theorem claim10_decoration_invariant (calls : List SetterCall) :
    (calls.foldl applyCall Plot.default).with_decoration = true
    ∧ (∀ (rowsFn : RowsFn) (fuel : ℕ),
        Plot.fmtStr rowsFn fuel (calls.foldl applyCall Plot.default)
          = Plot.fmtDecorated rowsFn fuel (calls.foldl applyCall Plot.default)) := by
  have hdec : (calls.foldl applyCall Plot.default).with_decoration = true :=
    (foldl_with_decoration calls Plot.default).trans rfl
  exact ⟨hdec, fun rowsFn fuel => fmtStr_eq_decorated rowsFn fuel _ hdec⟩

end Termplot
